import Mathlib

/-!
Shallow embedding of `src/walletscan/tronexporter.py` (classes
`TronTransferExporter` / `CoinTrackingExporter`): the transfer grouping,
merging and classification engine.

Python machine model used throughout:
* a `TronTransfer` object is a record of its fields; `amount` and
  `timestamp` are unbounded Python integers, embedded as `Int`;
* the insertion-ordered Python `dict` keyed by token name is embedded as an
  association list `List (String × TokenCat)` where assignment to an absent
  key appends at the end and assignment to a present key replaces the first
  (unique) entry in place;
* `list.append` is `· ++ [x]`, `list.remove` (under an `in` guard) is
  `List.erase`, `sorted`/`list.sort` with a key are `sortTs`, a stable
  sort on the key order (extensionally equal to Python's timsort, as any
  two stable sorts agree);
* code that can raise (`g[0]` on an empty list inside `_merge_transfers`)
  returns an `Option`, `none` standing for the raised `IndexError`, and
  `sys` termination via `exit()` in the classification loop of `export_csv`
  is `none` as well.
-/

/-- The `TransferType` enum of the source (values are its German display
strings; only the constructor identity matters to the engine). -/
inductive TransferType where
  | Deposit
  | Revenues
  | Mining
  | GiftIn
  | Withdrawal
  | Expense
  | Donation
  | GiftOut
  | Stolen
  | Loss
deriving DecidableEq

/-- One transfer record, mirroring the fields of `walletscan.TronTransfer`
that `tronexporter.py` reads and writes. -/
structure TronTransfer where
  from_address : String
  to_address : String
  token_name : String
  amount : Int
  timestamp : Int
  confirmed : Bool
  comment : String
deriving DecidableEq

/-- An assignment rule, as stored by `add_assign` (line 48): a transfer
type plus an optional sender and optional destination address. -/
structure AssignRule where
  transfer_type : TransferType
  from_address : Option String
  to_address : Option String
deriving DecidableEq

/-- A group rule, as stored by `add_group_filter` (line 87). -/
structure GroupFilter where
  currency : String
  from_address : Option String
  to_address : Option String
deriving DecidableEq

/-- One entry of a token's `groups` list: the per-group dict
`{is_outgoing, address, transfers}` built at lines 119-121 / 156-158. -/
structure TokenGroup where
  is_outgoing : Bool
  address : String
  transfers : List TronTransfer
deriving DecidableEq

/-- One value of the `grouped_tr` dict: `{count, groups}` (line 115). -/
structure TokenCat where
  count : Nat
  groups : List TokenGroup
deriving DecidableEq

/-- The mutable state of the loop of `_group_transfers` (lines 104-106):
the insertion-ordered dict `grouped_tr`, the list `ungrouped_tr` and the
list `new_group_currenys` (the per-token force-new-group flags). -/
structure GState where
  grouped_tr : List (String × TokenCat)
  ungrouped_tr : List TronTransfer
  new_group_currenys : List String
deriving DecidableEq

/-- Lookup in the insertion-ordered dict (`t.token_name in grouped_tr` /
`grouped_tr[k]`). -/
def dictFind (d : List (String × TokenCat)) (k : String) : Option TokenCat :=
  match d with
  | [] => none
  | p :: rest => if p.1 = k then some p.2 else dictFind rest k

/-- Assignment `grouped_tr[k] = v` on the insertion-ordered dict: replace
the first entry with key `k` if present, else append at the end. -/
def dictSet (d : List (String × TokenCat)) (k : String) (v : TokenCat) :
    List (String × TokenCat) :=
  match d with
  | [] => [(k, v)]
  | p :: rest => if p.1 = k then (k, v) :: rest else p :: dictSet rest k v

/-- In-place update of the element at index `i` of a Python list
(`xs[i].field.append(...)` style mutation). -/
def modifyAt (l : List TokenGroup) (i : Nat) (f : TokenGroup → TokenGroup) :
    List TokenGroup :=
  match l, i with
  | [], _ => []
  | x :: xs, 0 => f x :: xs
  | x :: xs, n + 1 => x :: modifyAt xs n f

/-- Which branch of the filter loop body fired for a transfer. -/
inductive MatchKind where
  | deposit
  | withdrawal
deriving DecidableEq

/-- The two guards of one iteration of the inner filter loop of
`_group_transfers`: the deposit guard (line 112) and, via `elif`, the
withdrawal guard (line 149). -/
def filterMatch (f : GroupFilter) (t : TronTransfer) : Option MatchKind :=
  if f.from_address = some t.from_address then some MatchKind.deposit
  else if f.to_address = some t.to_address then some MatchKind.withdrawal
  else none

/-- The inner `for g_filter in self.group_filters` loop with its `break`:
the first filter whose guard fires decides the branch. -/
def findMatch (fs : List GroupFilter) (t : TronTransfer) : Option MatchKind :=
  match fs with
  | [] => none
  | f :: rest =>
    match filterMatch f t with
    | some k => some k
    | none => findMatch rest t

/-- The matched-transfer branch bodies of `_group_transfers`
(deposit: lines 112-146, withdrawal: lines 149-183). Both bodies are the
same code up to the direction flag `outg` (`is_outgoing` of a newly opened
group: `False` for deposit, `True` for withdrawal) and the counterparty
`addr` (`t.from_address` for deposit, `t.to_address` for withdrawal);
note that the "does not fit" test of BOTH branches reads the last group's
`is_outgoing` field directly (lines 128 and 165). -/
def stepMatched (t : TronTransfer) (outg : Bool) (addr : String)
    (s : GState) : GState :=
  let d0 := if (dictFind s.grouped_tr t.token_name).isNone
    then s.grouped_tr ++ [(t.token_name, ⟨0, []⟩)] else s.grouped_tr
  let c0 := (dictFind d0 t.token_name).getD ⟨0, []⟩
  let c1 : TokenCat := if c0.count = 0
    then ⟨1, c0.groups ++ [⟨outg, addr, []⟩]⟩ else c0
  let gi := c1.count - 1
  let last := c1.groups.getD gi ⟨outg, addr, []⟩
  if last.is_outgoing || decide (last.address ≠ addr)
      || decide (t.token_name ∈ s.new_group_currenys) then
    let c2 : TokenCat := ⟨c1.count + 1, c1.groups ++ [⟨outg, addr, []⟩]⟩
    let gi2 := c2.count - 1
    let c3 : TokenCat := ⟨c2.count,
      modifyAt c2.groups gi2 (fun g => ⟨g.is_outgoing, g.address, g.transfers ++ [t]⟩)⟩
    { grouped_tr := dictSet d0 t.token_name c3,
      ungrouped_tr := s.ungrouped_tr,
      new_group_currenys :=
        if t.token_name ∈ s.new_group_currenys
        then s.new_group_currenys.erase t.token_name
        else s.new_group_currenys }
  else
    let c3 : TokenCat := ⟨c1.count,
      modifyAt c1.groups gi (fun g => ⟨g.is_outgoing, g.address, g.transfers ++ [t]⟩)⟩
    { grouped_tr := dictSet d0 t.token_name c3,
      ungrouped_tr := s.ungrouped_tr,
      new_group_currenys := s.new_group_currenys }

/-- The unmatched branch of `_group_transfers` (lines 185-190). -/
def stepUnmatched (t : TronTransfer) (s : GState) : GState :=
  { grouped_tr := s.grouped_tr,
    ungrouped_tr := s.ungrouped_tr ++ [t],
    new_group_currenys :=
      if (dictFind s.grouped_tr t.token_name).isSome
          ∧ t.token_name ∉ s.new_group_currenys
      then s.new_group_currenys ++ [t.token_name]
      else s.new_group_currenys }

/-- One iteration of the outer `for t in sorted_tr` loop of
`_group_transfers` (lines 107-190). -/
def groupStep (fs : List GroupFilter) (s : GState) (t : TronTransfer) : GState :=
  match findMatch fs t with
  | some MatchKind.deposit => stepMatched t false t.from_address s
  | some MatchKind.withdrawal => stepMatched t true t.to_address s
  | none => stepUnmatched t s

/-- The timestamp key order used by `sorted(transfers, key=...)` (line 102)
and `trs.sort(key=...)` (line 232). -/
def tsLe (a b : TronTransfer) : Bool := decide (a.timestamp ≤ b.timestamp)

/-- Stable insertion into a timestamp-sorted list: the new element goes in
front of the first element it is `tsLe`-below, hence after every
already-present element of equal timestamp that the fold reaches later. -/
def insertTs (x : TronTransfer) (l : List TronTransfer) : List TronTransfer :=
  match l with
  | [] => [x]
  | y :: ys => if tsLe x y then x :: y :: ys else y :: insertTs x ys

/-- Model of Python's stable `sorted(transfers, key=lambda x: x.timestamp)`
and `trs.sort(key=lambda x: x.timestamp)`: a stable sort on the timestamp
key (any stable sort computes the same list, so insertion sort stands in
for timsort). -/
def sortTs (l : List TronTransfer) : List TronTransfer := l.foldr insertTs []

/-- The flattening loop of `_group_transfers` (lines 192-195): all
per-token group lists in dict insertion order, each projected to its
transfer list. -/
def flattenGroups (d : List (String × TokenCat)) : List (List TronTransfer) :=
  (d.map (fun p => p.2.groups.map (fun g => g.transfers))).flatten

/-- `_group_transfers` (lines 90-197). On an empty filter list it returns
the empty dict (no groups) and the transfers untouched (lines 99-100);
otherwise it sorts by timestamp, folds the per-transfer step over the
sorted list and flattens the resulting dict. -/
def groupTransfers (fs : List GroupFilter) (transfers : List TronTransfer) :
    List (List TronTransfer) × List TronTransfer :=
  if fs = [] then ([], transfers)
  else
    let sorted_tr := sortTs transfers
    let final := sorted_tr.foldl (groupStep fs) ⟨[], [], []⟩
    (flattenGroups final.grouped_tr, final.ungrouped_tr)

/-- The body of the `for g in groups` loop of `_merge_transfers`
(lines 214-229): build the synthetic aggregate transfer of one group.
`g[0]` on an empty group raises `IndexError`, hence `none`.
`dateFmt` stands for `TronTransfer.get_date(timezone=...)`, which lives in
the `walletscan` package outside this file; modelled from the spec: it
renders a member timestamp as a date string in a caller-chosen time
zone/locale, so it is kept as an abstract function of the timestamp. -/
def mergeFold (g0 acc t : TronTransfer) : TronTransfer :=
  { acc with
    timestamp := t.timestamp,
    amount := acc.amount + t.amount,
    confirmed := acc.confirmed && g0.confirmed }

/-- The initial aggregate of the merge loop (lines 215-220): fields copied
from the group's first member, `amount = 0`, `confirmed = True`; the
timestamp of a freshly constructed `TronTransfer()` is left `0` here — the
loop overwrites it on every member, so on a non-empty group the initial
value never survives. -/
def mergeInit (g0 : TronTransfer) : TronTransfer :=
  { from_address := g0.from_address,
    to_address := g0.to_address,
    token_name := g0.token_name,
    amount := 0,
    timestamp := 0,
    confirmed := true,
    comment := "" }

def mergeGroup (dateFmt : Int → String) (g : List TronTransfer) :
    Option TronTransfer :=
  match g with
  | [] => none
  | g0 :: _ =>
    let final := g.foldl (mergeFold g0) (mergeInit g0)
    some { final with
      comment := "Grouped " ++ dateFmt g0.timestamp ++ " - " ++ dateFmt final.timestamp }

/-- `_merge_transfers` (lines 199-234): with no group filters the input is
returned untouched (lines 209-210); otherwise the groups are collapsed to
aggregates appended to the ungrouped list, which is then stable-sorted by
timestamp. An empty group propagates the `IndexError` of `mergeGroup`.
`export_csv` (line 273) calls `_merge_transfers` exactly when the filter
list is non-empty, so this function is also the record sequence the report
loop iterates over. -/
def mergeTransfers (dateFmt : Int → String) (fs : List GroupFilter)
    (transfers : List TronTransfer) : Option (List TronTransfer) :=
  if fs = [] then some transfers
  else
    let p := groupTransfers fs transfers
    match p.1.mapM (mergeGroup dateFmt) with
    | none => none
    | some aggs => some (sortTs (p.2 ++ aggs))

/-- The assignment guard of the classification loop of `export_csv`
(line 292): `tr.from_address == assign['from_address'] or
tr.to_address == assign['to_address']` (a string never equals `None`). -/
def assignMatch (a : AssignRule) (t : TronTransfer) : Bool :=
  decide (a.from_address = some t.from_address)
    || decide (a.to_address = some t.to_address)

/-- The `for assign in self.assignments` loop with its `break`
(lines 291-295): the first matching rule's transfer type. -/
def findAssign (as_ : List AssignRule) (t : TronTransfer) : Option TransferType :=
  match as_ with
  | [] => none
  | a :: rest =>
    if assignMatch a t then some a.transfer_type else findAssign rest t

/-- The per-record classification of `export_csv` (lines 287-306): first
matching assignment rule, else direction fallback against the wallet
address, else the fatal `exit()` (modelled as `none`). -/
def classify (as_ : List AssignRule) (wallet : String) (t : TronTransfer) :
    Option TransferType :=
  match findAssign as_ t with
  | some ty => some ty
  | none =>
    if t.to_address = wallet then some TransferType.Deposit
    else if t.from_address = wallet then some TransferType.Withdrawal
    else none

/-! ## Concrete inputs and spec-worded models used by the theorems -/

/-- Helper: a raw transfer record with an empty comment. -/
def mkTransfer (fa ta tok : String) (amt ts : Int) (conf : Bool) : TronTransfer :=
  ⟨fa, ta, tok, amt, ts, conf, ""⟩

def ruleFromA : List GroupFilter := [⟨"X", some "A", none⟩]

def ruleToB : List GroupFilter := [⟨"X", none, some "B"⟩]

def c1w1 : TronTransfer := mkTransfer "C" "B" "X" 7 1 true

def c1w2 : TronTransfer := mkTransfer "D" "B" "X" 8 2 true

def c2t1 : TronTransfer := mkTransfer "A" "B" "X" 100 1 true

def c2t2 : TronTransfer := mkTransfer "A" "B" "X" 50 2 false

def c3a : TronTransfer := mkTransfer "A" "B" "X" 1 2 true

def c3b : TronTransfer := mkTransfer "A" "B" "X" 1 1 true

def c7t1 : TronTransfer := mkTransfer "A" "B" "X" 100 1 true

def c7t2 : TronTransfer := mkTransfer "A" "B" "X" 50 2 true

def c10w : TronTransfer := mkTransfer "C" "B" "X" 7 1 true

/-- Refinement model of the classification contract, following the spec's
words (section 4.1): scan the assignment rules in registration order and
return the transfer type of the first rule that matches (rule matches when
its from_address, when set, equals the transfer's from_address, OR its
to_address, when set, equals the transfer's to_address); on no match fall
back to direction against the wallet address, and fail when the transfer
touches the wallet on neither side. -/
def classifySpec (as_ : List AssignRule) (wallet : String) (t : TronTransfer) :
    Option TransferType :=
  match as_.find? (fun a => assignMatch a t) with
  | some a => some a.transfer_type
  | none =>
    if t.to_address = wallet then some TransferType.Deposit
    else if t.from_address = wallet then some TransferType.Withdrawal
    else none

/-- Contiguity relation for a pair `a`, `b` of members of one group, in
this order: no transfer of `a`'s token that matches no group rule sits
strictly between them in timestamp order among the `processed` prefix of
the (sorted) input. -/
def NoBetween (fs : List GroupFilter) (processed : List TronTransfer)
    (a b : TronTransfer) : Prop :=
  ∀ u ∈ processed, findMatch fs u = none → u.token_name = a.token_name →
    ¬(a.timestamp < u.timestamp ∧ u.timestamp < b.timestamp)

/-- Loop invariant of `_group_transfers` after processing the prefix
`processed` of the sorted input: bookkeeping facts about the `grouped_tr`
dict (unique keys, `count` mirrors the group-list length, token keys are
the members' tokens, members come from the processed prefix), the
force-new-group flag list (duplicate-free, only tokens with a category),
the boundary fact that a clear flag means no processed unmatched transfer
of the token is later than any member of the token's last group, and the
contiguity fact `NoBetween` for every pair of every group. -/
structure GInv (fs : List GroupFilter) (s : GState)
    (processed : List TronTransfer) : Prop where
  keys_nodup : (s.grouped_tr.map Prod.fst).Nodup
  flags_nodup : s.new_group_currenys.Nodup
  flag_cat : ∀ k ∈ s.new_group_currenys, (dictFind s.grouped_tr k).isSome
  count_eq : ∀ k c, dictFind s.grouped_tr k = some c → c.count = c.groups.length
  groups_ne : ∀ k c, dictFind s.grouped_tr k = some c → c.groups ≠ []
  token_eq : ∀ k c, dictFind s.grouped_tr k = some c → ∀ g ∈ c.groups,
      ∀ a ∈ g.transfers, a.token_name = k
  mem_processed : ∀ k c, dictFind s.grouped_tr k = some c → ∀ g ∈ c.groups,
      ∀ a ∈ g.transfers, a ∈ processed
  last_bound : ∀ k c, dictFind s.grouped_tr k = some c →
      k ∉ s.new_group_currenys → ∀ L, c.groups.getLast? = some L →
      ∀ u ∈ processed, findMatch fs u = none → u.token_name = k →
      ∀ a ∈ L.transfers, u.timestamp ≤ a.timestamp
  no_between : ∀ k c, dictFind s.grouped_tr k = some c → ∀ g ∈ c.groups,
      List.Pairwise (NoBetween fs processed) g.transfers

def c6u0 : TronTransfer := mkTransfer "Q" "R" "X" 1 5 true

/-! ## Helper lemmas -/

theorem mergeFold_amount (g0 : TronTransfer) (l : List TronTransfer) :
    ∀ acc : TronTransfer,
      (l.foldl (mergeFold g0) acc).amount
        = acc.amount + (l.map (fun t => t.amount)).sum := by
  induction l with
  | nil => intro acc; simp
  | cons x xs ih =>
    intro acc
    simp only [List.foldl_cons, List.map_cons, List.sum_cons, ih, mergeFold]
    ring

theorem tsLe_trans {a b c : TronTransfer} (hab : tsLe a b = true)
    (hbc : tsLe b c = true) : tsLe a c = true := by
  simp only [tsLe, decide_eq_true_eq] at hab hbc ⊢
  omega

theorem tsLe_total (a b : TronTransfer) : tsLe a b = true ∨ tsLe b a = true := by
  simp only [tsLe, decide_eq_true_eq]
  exact Int.le_total a.timestamp b.timestamp

theorem insertTs_perm (x : TronTransfer) (l : List TronTransfer) :
    List.Perm (insertTs x l) (x :: l) := by
  induction l with
  | nil => exact List.Perm.refl _
  | cons y ys ih =>
    unfold insertTs
    by_cases h : tsLe x y
    · rw [if_pos h]
    · rw [if_neg h]
      exact (ih.cons y).trans (List.Perm.swap x y ys)

theorem sortTs_perm (l : List TronTransfer) : List.Perm (sortTs l) l := by
  induction l with
  | nil => exact List.Perm.refl _
  | cons x xs ih => exact (insertTs_perm x (sortTs xs)).trans (ih.cons x)

theorem insertTs_sorted (x : TronTransfer) (l : List TronTransfer)
    (h : List.Pairwise (fun a b => tsLe a b = true) l) :
    List.Pairwise (fun a b => tsLe a b = true) (insertTs x l) := by
  induction l with
  | nil => simp [insertTs]
  | cons y ys ih =>
    rw [List.pairwise_cons] at h
    obtain ⟨hy, hys⟩ := h
    unfold insertTs
    by_cases hxy : tsLe x y
    · rw [if_pos hxy, List.pairwise_cons]
      refine ⟨?_, List.pairwise_cons.mpr ⟨hy, hys⟩⟩
      intro b hb
      rcases List.mem_cons.mp hb with hb | hb
      · rw [hb]; exact hxy
      · exact tsLe_trans hxy (hy b hb)
    · rw [if_neg hxy, List.pairwise_cons]
      have hyx : tsLe y x = true := by
        rcases tsLe_total x y with h1 | h1
        · exact absurd h1 hxy
        · exact h1
      refine ⟨?_, ih hys⟩
      intro b hb
      have hb2 : b ∈ x :: ys := (insertTs_perm x ys).mem_iff.mp hb
      rcases List.mem_cons.mp hb2 with hb2 | hb2
      · rw [hb2]; exact hyx
      · exact hy b hb2

theorem sortTs_sorted (l : List TronTransfer) :
    List.Pairwise (fun a b => tsLe a b = true) (sortTs l) := by
  induction l with
  | nil => simp [sortTs]
  | cons x xs ih => exact insertTs_sorted x (sortTs xs) ih

theorem findAssign_eq_find (as_ : List AssignRule) (t : TronTransfer) :
    findAssign as_ t
      = (as_.find? (fun a => assignMatch a t)).map (fun a => a.transfer_type) := by
  induction as_ with
  | nil => rfl
  | cons a rest ih =>
    simp only [findAssign, List.find?_cons]
    by_cases h : assignMatch a t
    · simp [h]
    · simp only [Bool.not_eq_true] at h
      simp [h, ih]

/-! ## Claim theorems -/

/-- C1: evaluation of the withdrawal-style branch at the concrete input of
two transfers to counterparty B under the single group rule with
to_address = B. Both transfers are to the same counterparty, the last open
group is outgoing (same direction) and the force-new-group flag is clear,
so by the claim the second transfer must be appended to the first one's
group; the code instead returns three groups — an empty one plus two
singletons — because the "does not fit" test of the withdrawal branch
(line 165) reads the last group's `is_outgoing` flag un-negated, so every
withdrawal-style match whose last group is outgoing opens a fresh group
(and the group freshly opened at lines 155-159 is abandoned while still
empty). -/
theorem c1_withdrawal_branch_splits_groups :
    groupTransfers ruleToB [c1w1, c1w2] = ([[], [c1w1], [c1w2]], []) := by
  decide

/-- C2: evaluation of the merge step at a two-member group whose first
member is confirmed and whose second member is not. The claim requires the
aggregate's confirmed flag to be the AND over every member's own flag,
hence `false`; the code (line 225) ANDs the *first* member's flag on every
iteration, so the aggregate comes out `confirmed = true` although the
member `c2t2` is unconfirmed. -/
theorem c2_confirmed_ands_first_member :
    mergeTransfers (fun _ => "d") ruleFromA [c2t1, c2t2]
      = some [⟨"A", "B", "X", 150, 2, true, "Grouped d - d"⟩]
    ∧ c2t2.confirmed = false := by
  decide

/-- C3 counterexample: with an empty group rule set the pipeline never
sorts — `export_csv` (line 273) skips `_merge_transfers` (whose line 209
guard would also return the input untouched) — so the out-of-order input
`[timestamp 2, timestamp 1]` is emitted as is, and the emitted sequence is
not non-decreasing in timestamp. -/
theorem c3_unsorted_with_empty_rules :
    mergeTransfers (fun _ => "") [] [c3a, c3b] = some [c3a, c3b]
    ∧ ¬ List.Pairwise (fun a b : TronTransfer => a.timestamp ≤ b.timestamp)
        [c3a, c3b] := by
  decide

/-- C3 amended: whenever the group rule set is non-empty and the merge step
succeeds, the emitted record sequence is non-decreasing in timestamp (the
final `trs.sort` of line 232); with an empty rule set the records are
emitted in input order, which the counterexample shows need not be
sorted. -/
theorem c3_merge_output_sorted (dateFmt : Int → String) (fs : List GroupFilter)
    (ts out : List TronTransfer) (hfs : fs ≠ [])
    (h : mergeTransfers dateFmt fs ts = some out) :
    List.Pairwise (fun a b : TronTransfer => a.timestamp ≤ b.timestamp) out := by
  simp only [mergeTransfers, if_neg hfs] at h
  cases hm : (groupTransfers fs ts).1.mapM (mergeGroup dateFmt) with
  | none => rw [hm] at h; cases h
  | some aggs =>
    rw [hm] at h
    injection h with h
    subst h
    have hs := sortTs_sorted ((groupTransfers fs ts).2 ++ aggs)
    exact hs.imp (fun hab => by simpa [tsLe] using hab)

/-- C3 amended, witness: the sorted-output theorem applied at a concrete
one-transfer input under a deposit-style rule. -/
theorem c3_merge_output_sorted_witness :
    List.Pairwise (fun a b : TronTransfer => a.timestamp ≤ b.timestamp)
      [⟨"A", "B", "X", 100, 1, true, "Grouped d - d"⟩] :=
  c3_merge_output_sorted (fun _ => "d") ruleFromA
    [mkTransfer "A" "B" "X" 100 1 true]
    [⟨"A", "B", "X", 100, 1, true, "Grouped d - d"⟩]
    (by decide) (by decide)

/-- C4: whenever the merge step produces an aggregate record for a group,
the aggregate's amount is the exact integer sum of the amounts of all the
group's members. -/
theorem c4_amount_conservation (dateFmt : Int → String)
    (g : List TronTransfer) (agg : TronTransfer)
    (h : mergeGroup dateFmt g = some agg) :
    agg.amount = (g.map (fun t => t.amount)).sum := by
  cases g with
  | nil => cases h
  | cons g0 rest =>
    simp only [mergeGroup] at h
    injection h with h
    subst h
    simpa [mergeInit] using mergeFold_amount g0 (g0 :: rest) (mergeInit g0)

/-- C4, witness: conservation applied at the concrete two-member group of
Scenario A. -/
theorem c4_amount_conservation_witness :
    (⟨"A", "B", "X", 150, 2, true, "Grouped d - d"⟩ : TronTransfer).amount
      = ([mkTransfer "A" "B" "X" 100 1 true,
          mkTransfer "A" "B" "X" 50 2 true].map (fun t => t.amount)).sum :=
  c4_amount_conservation (fun _ => "d")
    [mkTransfer "A" "B" "X" 100 1 true, mkTransfer "A" "B" "X" 50 2 true]
    ⟨"A", "B", "X", 150, 2, true, "Grouped d - d"⟩ (by decide)

/-- C5: with an empty group rule set, grouping returns no groups and the
transfers unchanged (lines 99-100), and the merge step returns the input
list identically (lines 209-210). -/
theorem c5_empty_rules_passthrough (dateFmt : Int → String)
    (ts : List TronTransfer) :
    groupTransfers [] ts = ([], ts) ∧ mergeTransfers dateFmt [] ts = some ts :=
  ⟨rfl, rfl⟩

/-- C7: for the two transfers (A to B, token X, amount 100, timestamp 1)
and (A to B, token X, amount 50, timestamp 2) under the single
deposit-style group rule with from_address = A, the merge output is
exactly one aggregate record with amount 150, timestamp 2 (the last
member's), and a comment spanning the rendered dates of timestamps 1 and
2, for every date rendering function. -/
theorem c7_two_deposits_merge (dateFmt : Int → String) :
    mergeTransfers dateFmt ruleFromA [c7t1, c7t2]
      = some [⟨"A", "B", "X", 150, 2, true,
              "Grouped " ++ dateFmt 1 ++ " - " ++ dateFmt 2⟩] := rfl

/-- C8: the classification loop of `export_csv` agrees with the
first-matching-rule-then-direction-fallback contract on every transfer,
rule list and wallet address; as a Lean function it is pure and
deterministic by construction. -/
theorem c8_classification_first_match (as_ : List AssignRule) (wallet : String)
    (t : TronTransfer) :
    classify as_ wallet t = classifySpec as_ wallet t := by
  unfold classify classifySpec
  rw [findAssign_eq_find]
  cases as_.find? (fun a => assignMatch a t) <;> rfl

/-- C9: classification fails (the fatal `exit()` of line 306, modelled as
`none`) exactly when no assignment rule matches the transfer and neither
of its addresses equals the wallet address; in particular it succeeds on
every transfer that touches the wallet on at least one side. -/
theorem c9_unclassifiable_iff (as_ : List AssignRule) (wallet : String)
    (t : TronTransfer) :
    classify as_ wallet t = none
      ↔ (∀ a ∈ as_, assignMatch a t = false)
        ∧ t.to_address ≠ wallet ∧ t.from_address ≠ wallet := by
  cases hfa : findAssign as_ t with
  | some ty =>
    have hcl : classify as_ wallet t = some ty := by
      unfold classify; rw [hfa]
    rw [hcl]
    constructor
    · intro h; cases h
    · rintro ⟨hall, -, -⟩
      rw [findAssign_eq_find] at hfa
      cases hfind : as_.find? (fun a => assignMatch a t) with
      | none => rw [hfind] at hfa; cases hfa
      | some a =>
        have hmatch := List.find?_some hfind
        rw [hall a (List.mem_of_find?_eq_some hfind)] at hmatch
        cases hmatch
  | none =>
    have hforall : ∀ a ∈ as_, assignMatch a t = false := by
      rw [findAssign_eq_find] at hfa
      cases hfind : as_.find? (fun a => assignMatch a t) with
      | some a => rw [hfind] at hfa; cases hfa
      | none =>
        intro a ha
        have := (List.find?_eq_none.mp hfind) a ha
        simpa using this
    have hcl : classify as_ wallet t =
        (if t.to_address = wallet then some TransferType.Deposit
         else if t.from_address = wallet then some TransferType.Withdrawal
         else none) := by
      unfold classify; rw [hfa]
    rw [hcl]
    by_cases h2 : t.to_address = wallet
    · rw [if_pos h2]
      constructor
      · intro h; cases h
      · rintro ⟨-, h2n, -⟩; exact absurd h2 h2n
    · rw [if_neg h2]
      by_cases h1 : t.from_address = wallet
      · rw [if_pos h1]
        constructor
        · intro h; cases h
        · rintro ⟨-, -, h1n⟩; exact absurd h1 h1n
      · rw [if_neg h1]
        constructor
        · intro _; exact ⟨hforall, h2, h1⟩
        · intro _; rfl

/-- C10: evaluation at a single transfer matched by a withdrawal-style
rule: the grouping step returns an empty group next to the singleton one
(so its output is not a partition into non-empty groups), and the merge
step consequently fails with the `IndexError` of `g[0]` (line 217,
modelled as `none`) instead of producing an output of equal total
amount. -/
theorem c10_empty_group_merge_fails :
    groupTransfers ruleToB [c10w] = ([[], [c10w]], [])
    ∧ mergeTransfers (fun _ => "") ruleToB [c10w] = none := by
  decide

/-! ## Dict and list bookkeeping lemmas for the grouping invariant -/

theorem dictFind_append (d e : List (String × TokenCat)) (k : String) :
    dictFind (d ++ e) k
      = match dictFind d k with
        | some c => some c
        | none => dictFind e k := by
  induction d with
  | nil => rfl
  | cons p rest ih =>
    by_cases h : p.1 = k
    · simp [dictFind, h]
    · simp [dictFind, h, ih]

theorem dictFind_eq_none_iff (d : List (String × TokenCat)) (k : String) :
    dictFind d k = none ↔ k ∉ d.map Prod.fst := by
  induction d with
  | nil => simp [dictFind]
  | cons p rest ih =>
    by_cases h : p.1 = k
    · simp [dictFind, h]
    · simp [dictFind, h, ih, Ne.symm h]

theorem dictFind_dictSet_self (d : List (String × TokenCat)) (k : String)
    (v : TokenCat) : dictFind (dictSet d k v) k = some v := by
  induction d with
  | nil => simp [dictSet, dictFind]
  | cons p rest ih =>
    by_cases h : p.1 = k
    · simp [dictSet, h, dictFind]
    · simp [dictSet, h, dictFind, ih]

theorem dictFind_dictSet_ne (d : List (String × TokenCat)) (k k2 : String)
    (v : TokenCat) (h : k2 ≠ k) :
    dictFind (dictSet d k v) k2 = dictFind d k2 := by
  induction d with
  | nil => simp [dictSet, dictFind, Ne.symm h]
  | cons p rest ih =>
    by_cases hp : p.1 = k
    · subst hp
      simp [dictSet, dictFind, Ne.symm h]
    · by_cases hp2 : p.1 = k2
      · simp [dictSet, hp, dictFind, hp2, h]
      · simp [dictSet, hp, dictFind, hp2, ih]

theorem dictFind_dictSet_cases (d : List (String × TokenCat))
    (k0 : String) (v : TokenCat) (k : String) (c : TokenCat)
    (h : dictFind (dictSet d k0 v) k = some c) :
    (k = k0 ∧ c = v) ∨ (k ≠ k0 ∧ dictFind d k = some c) := by
  by_cases hk : k = k0
  · subst hk
    rw [dictFind_dictSet_self] at h
    exact Or.inl ⟨rfl, (Option.some_inj.mp h).symm⟩
  · right
    rw [dictFind_dictSet_ne d k0 k v hk] at h
    exact ⟨hk, h⟩

theorem dictSet_keys_present (d : List (String × TokenCat)) (k : String)
    (v c : TokenCat) (h : dictFind d k = some c) :
    (dictSet d k v).map Prod.fst = d.map Prod.fst := by
  induction d with
  | nil => cases h
  | cons p rest ih =>
    by_cases hp : p.1 = k
    · simp [dictSet, hp]
    · simp only [dictFind, if_neg hp] at h
      simp [dictSet, hp, ih h]

theorem dictSet_append_fresh (d : List (String × TokenCat)) (k : String)
    (v0 v : TokenCat) (h : dictFind d k = none) :
    dictSet (d ++ [(k, v0)]) k v = d ++ [(k, v)] := by
  induction d with
  | nil => simp [dictSet]
  | cons p rest ih =>
    by_cases hp : p.1 = k
    · simp [dictFind, hp] at h
    · simp only [dictFind, if_neg hp] at h
      simp [dictSet, hp, ih h]

theorem getD_append_length (l : List TokenGroup) (x dflt : TokenGroup) :
    (l ++ [x]).getD l.length dflt = x := by
  induction l with
  | nil => rfl
  | cons y ys ih => simp only [List.cons_append, List.length_cons, List.getD_cons_succ, ih]

theorem modifyAt_append_length (l : List TokenGroup) (x : TokenGroup)
    (f : TokenGroup → TokenGroup) :
    modifyAt (l ++ [x]) l.length f = l ++ [f x] := by
  induction l with
  | nil => rfl
  | cons y ys ih => simp [modifyAt, ih]

theorem dictFind_of_mem (d : List (String × TokenCat))
    (p : String × TokenCat) (hnd : (d.map Prod.fst).Nodup) (hp : p ∈ d) :
    dictFind d p.1 = some p.2 := by
  induction d with
  | nil => cases hp
  | cons q rest ih =>
    rcases List.mem_cons.mp hp with hp | hp
    · subst hp; simp [dictFind]
    · simp only [List.map_cons, List.nodup_cons] at hnd
      have hne : q.1 ≠ p.1 := by
        intro he
        exact hnd.1 (he ▸ List.mem_map_of_mem Prod.fst hp)
      simp [dictFind, hne, ih hnd.2 hp]

/-! ## Shape lemmas: the outcomes of the matched-transfer branch -/

theorem stepMatched_fresh (t : TronTransfer) (outg : Bool) (addr : String)
    (s : GState) (hcat : dictFind s.grouped_tr t.token_name = none)
    (hflag : t.token_name ∉ s.new_group_currenys) :
    stepMatched t outg addr s =
      { grouped_tr := s.grouped_tr ++
          [(t.token_name,
            if outg then ⟨2, [⟨true, addr, []⟩, ⟨true, addr, [t]⟩]⟩
            else ⟨1, [⟨false, addr, [t]⟩]⟩)],
        ungrouped_tr := s.ungrouped_tr,
        new_group_currenys := s.new_group_currenys } := by
  have h0 : dictFind (s.grouped_tr ++ [(t.token_name, ⟨0, []⟩)]) t.token_name
      = some ⟨0, []⟩ := by
    rw [dictFind_append, hcat]
    simp [dictFind]
  have hset := dictSet_append_fresh s.grouped_tr t.token_name ⟨0, []⟩
  have haddr : decide (addr ≠ addr) = false := by simp
  have hfl : decide (t.token_name ∈ s.new_group_currenys) = false :=
    decide_eq_false hflag
  unfold stepMatched
  simp only [hcat, Option.isNone_none, if_true, h0, Option.getD_some]
  cases outg with
  | false =>
    norm_num [List.getD, haddr, hfl, modifyAt, hset _ hcat, hflag]
  | true =>
    norm_num [List.getD, modifyAt, hset _ hcat, hflag]

theorem stepMatched_append (t : TronTransfer) (outg : Bool) (addr : String)
    (s : GState) (c : TokenCat) (gs : List TokenGroup) (L : TokenGroup)
    (hcat : dictFind s.grouped_tr t.token_name = some c)
    (hcount : c.count = c.groups.length)
    (hsplit : c.groups = gs ++ [L])
    (hfit : (L.is_outgoing || decide (L.address ≠ addr)
      || decide (t.token_name ∈ s.new_group_currenys)) = false) :
    stepMatched t outg addr s =
      { grouped_tr := dictSet s.grouped_tr t.token_name
          ⟨c.count, gs ++ [⟨L.is_outgoing, L.address, L.transfers ++ [t]⟩]⟩,
        ungrouped_tr := s.ungrouped_tr,
        new_group_currenys := s.new_group_currenys } := by
  have hlen : c.count = gs.length + 1 := by rw [hcount, hsplit]; simp
  have hne0 : ¬ c.count = 0 := by omega
  have hgi : c.count - 1 = gs.length := by omega
  unfold stepMatched
  simp only [hcat, Option.isNone_some, Bool.false_eq_true, if_false,
    Option.getD_some, hne0, hgi, hsplit, getD_append_length,
    modifyAt_append_length, hfit]

theorem stepMatched_newgroup (t : TronTransfer) (outg : Bool) (addr : String)
    (s : GState) (c : TokenCat) (gs : List TokenGroup) (L : TokenGroup)
    (hcat : dictFind s.grouped_tr t.token_name = some c)
    (hcount : c.count = c.groups.length)
    (hsplit : c.groups = gs ++ [L])
    (hfit : (L.is_outgoing || decide (L.address ≠ addr)
      || decide (t.token_name ∈ s.new_group_currenys)) = true) :
    stepMatched t outg addr s =
      { grouped_tr := dictSet s.grouped_tr t.token_name
          ⟨c.count + 1, (gs ++ [L]) ++ [⟨outg, addr, [t]⟩]⟩,
        ungrouped_tr := s.ungrouped_tr,
        new_group_currenys :=
          if t.token_name ∈ s.new_group_currenys
          then s.new_group_currenys.erase t.token_name
          else s.new_group_currenys } := by
  have hlen : c.count = gs.length + 1 := by rw [hcount, hsplit]; simp
  have hne0 : ¬ c.count = 0 := by omega
  have hgi : c.count - 1 = gs.length := by omega
  have hgi2 : c.count + 1 - 1 = (gs ++ [L]).length := by simp; omega
  unfold stepMatched
  simp only [hcat, Option.isNone_some, Bool.false_eq_true, if_false,
    Option.getD_some, hne0, hgi, hsplit, getD_append_length, hfit, if_true,
    hgi2, modifyAt_append_length, List.nil_append]

/-! ## Invariant preservation -/

theorem dictFind_append_of_some (d e : List (String × TokenCat)) (k : String)
    (c : TokenCat) (h : dictFind d k = some c) : dictFind (d ++ e) k = some c := by
  rw [dictFind_append, h]

theorem dictFind_append_one_cases (d : List (String × TokenCat)) (k0 : String)
    (v : TokenCat) (k : String) (c : TokenCat)
    (h : dictFind (d ++ [(k0, v)]) k = some c) :
    dictFind d k = some c ∨ (k = k0 ∧ c = v ∧ dictFind d k = none) := by
  rw [dictFind_append] at h
  cases hd : dictFind d k with
  | some c2 => rw [hd] at h; exact Or.inl h
  | none =>
    rw [hd] at h
    right
    by_cases hk : k0 = k
    · simp only [dictFind, if_pos hk] at h
      exact ⟨hk.symm, (Option.some_inj.mp h).symm, rfl⟩
    · simp only [dictFind, if_neg hk] at h
      cases h

theorem dictFind_dictSet_isSome (d : List (String × TokenCat)) (k0 : String)
    (v : TokenCat) (k : String) (h : (dictFind d k).isSome) :
    (dictFind (dictSet d k0 v) k).isSome := by
  by_cases hk : k = k0
  · subst hk; rw [dictFind_dictSet_self]; rfl
  · rw [dictFind_dictSet_ne d k0 k v hk]; exact h

theorem mem_of_getLast_opt {l : List TokenGroup} {a : TokenGroup}
    (h : l.getLast? = some a) : a ∈ l := by
  induction l using List.reverseRecOn with
  | nil => cases h
  | append_singleton xs x _ =>
    rw [List.getLast?_concat] at h
    rw [List.mem_append, List.mem_singleton]
    exact Or.inr (Option.some_inj.mp h).symm

theorem noBetween_extend_matched (fs : List GroupFilter) (t : TronTransfer)
    (processed : List TronTransfer) (hm : findMatch fs t ≠ none)
    {a b : TronTransfer} (h : NoBetween fs processed a b) :
    NoBetween fs (processed ++ [t]) a b := by
  intro u hu hum htok
  rcases List.mem_append.mp hu with hu | hu
  · exact h u hu hum htok
  · rw [List.mem_singleton] at hu
    subst hu
    exact absurd hum hm

theorem ginv_fresh_cat (fs : List GroupFilter) (t : TronTransfer) (s : GState)
    (processed : List TronTransfer) (cnew : TokenCat)
    (hinv : GInv fs s processed) (hm : findMatch fs t ≠ none)
    (hbound : ∀ p ∈ processed, p.timestamp ≤ t.timestamp)
    (hcat : dictFind s.grouped_tr t.token_name = none)
    (hc1 : cnew.count = cnew.groups.length)
    (hc2 : cnew.groups ≠ [])
    (hc3 : ∀ g ∈ cnew.groups, ∀ a ∈ g.transfers, a = t) :
    GInv fs
      { grouped_tr := s.grouped_tr ++ [(t.token_name, cnew)],
        ungrouped_tr := s.ungrouped_tr,
        new_group_currenys := s.new_group_currenys }
      (processed ++ [t]) := by
  refine ⟨?_, hinv.flags_nodup, ?_, ?_, ?_, ?_, ?_, ?_, ?_⟩
  · dsimp only
    rw [List.map_append, List.nodup_append]
    refine ⟨hinv.keys_nodup, by simp, ?_⟩
    intro a ha hb
    simp only [List.map_cons, List.map_nil, List.mem_singleton] at hb
    subst hb
    exact (dictFind_eq_none_iff _ _).mp hcat ha
  · intro k hk
    dsimp only at hk ⊢
    have h1 := hinv.flag_cat k hk
    cases hfk : dictFind s.grouped_tr k with
    | none => rw [hfk] at h1; cases h1
    | some ck => rw [dictFind_append_of_some _ _ _ _ hfk]; rfl
  · intro k c2 hfound
    dsimp only at hfound
    rcases dictFind_append_one_cases _ _ _ _ _ hfound with hold | ⟨hk, hc, -⟩
    · exact hinv.count_eq _ _ hold
    · subst hc; exact hc1
  · intro k c2 hfound
    dsimp only at hfound
    rcases dictFind_append_one_cases _ _ _ _ _ hfound with hold | ⟨hk, hc, -⟩
    · exact hinv.groups_ne _ _ hold
    · subst hc; exact hc2
  · intro k c2 hfound g hg a ha
    dsimp only at hfound
    rcases dictFind_append_one_cases _ _ _ _ _ hfound with hold | ⟨hk, hc, -⟩
    · exact hinv.token_eq _ _ hold g hg a ha
    · subst hk hc
      rw [hc3 g hg a ha]
  · intro k c2 hfound g hg a ha
    dsimp only at hfound
    rcases dictFind_append_one_cases _ _ _ _ _ hfound with hold | ⟨hk, hc, -⟩
    · exact List.mem_append_left _ (hinv.mem_processed _ _ hold g hg a ha)
    · subst hc
      rw [hc3 g hg a ha]
      exact List.mem_append_right _ (List.mem_singleton.mpr rfl)
  · intro k c2 hfound hkfl L2 hL2 u hu hum htoku a ha
    dsimp only at hfound hkfl hL2
    rcases dictFind_append_one_cases _ _ _ _ _ hfound with hold | ⟨hk, hc, -⟩
    · rcases List.mem_append.mp hu with hu | hu
      · exact hinv.last_bound _ _ hold hkfl L2 hL2 u hu hum htoku a ha
      · rw [List.mem_singleton] at hu; subst hu; exact absurd hum hm
    · subst hc
      have hat : a = t := hc3 L2 (mem_of_getLast_opt hL2) a ha
      subst hat
      rcases List.mem_append.mp hu with hu | hu
      · exact hbound u hu
      · rw [List.mem_singleton] at hu; subst hu; exact absurd hum hm
  · intro k c2 hfound g hg
    dsimp only at hfound
    rcases dictFind_append_one_cases _ _ _ _ _ hfound with hold | ⟨hk, hc, -⟩
    · exact (hinv.no_between _ _ hold g hg).imp
        (fun h => noBetween_extend_matched fs t processed hm h)
    · subst hc
      apply List.pairwise_of_forall_mem_list
      intro a ha b hb
      have hat : a = t := hc3 g hg a ha
      have hbt : b = t := hc3 g hg b hb
      subst hat hbt
      intro u hu hum htoku
      rintro ⟨h1, h2⟩
      omega

theorem ginv_append_last (fs : List GroupFilter) (t : TronTransfer)
    (s : GState) (processed : List TronTransfer) (c : TokenCat)
    (gs : List TokenGroup) (L : TokenGroup)
    (hinv : GInv fs s processed) (hm : findMatch fs t ≠ none)
    (hbound : ∀ p ∈ processed, p.timestamp ≤ t.timestamp)
    (hcat : dictFind s.grouped_tr t.token_name = some c)
    (hsplit : c.groups = gs ++ [L])
    (hflag : t.token_name ∉ s.new_group_currenys) :
    GInv fs
      { grouped_tr := dictSet s.grouped_tr t.token_name
          ⟨c.count, gs ++ [⟨L.is_outgoing, L.address, L.transfers ++ [t]⟩]⟩,
        ungrouped_tr := s.ungrouped_tr,
        new_group_currenys := s.new_group_currenys }
      (processed ++ [t]) := by
  have hLmem : L ∈ c.groups := by
    rw [hsplit]
    exact List.mem_append_right _ (List.mem_singleton.mpr rfl)
  have hLlast : c.groups.getLast? = some L := by
    rw [hsplit]
    exact List.getLast?_concat gs
  have htokL : ∀ a ∈ L.transfers, a.token_name = t.token_name :=
    fun a ha => hinv.token_eq _ _ hcat L hLmem a ha
  refine ⟨?_, hinv.flags_nodup, ?_, ?_, ?_, ?_, ?_, ?_, ?_⟩
  · dsimp only
    rw [dictSet_keys_present s.grouped_tr t.token_name _ c hcat]
    exact hinv.keys_nodup
  · intro k hk
    exact dictFind_dictSet_isSome _ _ _ _ (by rw [hinv.flag_cat k hk])
  · intro k c2 hfound
    dsimp only at hfound
    rcases dictFind_dictSet_cases _ _ _ _ _ hfound with ⟨hk, hc⟩ | ⟨hk, hold⟩
    · subst hc
      dsimp only
      rw [hinv.count_eq _ _ hcat, hsplit]
      simp
    · exact hinv.count_eq _ _ hold
  · intro k c2 hfound
    dsimp only at hfound
    rcases dictFind_dictSet_cases _ _ _ _ _ hfound with ⟨hk, hc⟩ | ⟨hk, hold⟩
    · subst hc; simp
    · exact hinv.groups_ne _ _ hold
  · intro k c2 hfound g hg a ha
    dsimp only at hfound
    rcases dictFind_dictSet_cases _ _ _ _ _ hfound with ⟨hk, hc⟩ | ⟨hk, hold⟩
    · subst hk hc
      dsimp only at hg
      rcases List.mem_append.mp hg with hg | hg
      · exact hinv.token_eq _ _ hcat g
          (by rw [hsplit]; exact List.mem_append_left _ hg) a ha
      · rw [List.mem_singleton] at hg
        subst hg
        dsimp only at ha
        rcases List.mem_append.mp ha with ha | ha
        · exact htokL a ha
        · rw [List.mem_singleton] at ha; subst ha; rfl
    · exact hinv.token_eq _ _ hold g hg a ha
  · intro k c2 hfound g hg a ha
    dsimp only at hfound
    rcases dictFind_dictSet_cases _ _ _ _ _ hfound with ⟨hk, hc⟩ | ⟨hk, hold⟩
    · subst hk hc
      dsimp only at hg
      rcases List.mem_append.mp hg with hg | hg
      · exact List.mem_append_left _ (hinv.mem_processed _ _ hcat g
          (by rw [hsplit]; exact List.mem_append_left _ hg) a ha)
      · rw [List.mem_singleton] at hg
        subst hg
        dsimp only at ha
        rcases List.mem_append.mp ha with ha | ha
        · exact List.mem_append_left _ (hinv.mem_processed _ _ hcat L hLmem a ha)
        · rw [List.mem_singleton] at ha
          subst ha
          exact List.mem_append_right _ (List.mem_singleton.mpr rfl)
    · exact List.mem_append_left _ (hinv.mem_processed _ _ hold g hg a ha)
  · intro k c2 hfound hkfl L2 hL2 u hu hum htoku a ha
    dsimp only at hfound hkfl hL2
    rcases dictFind_dictSet_cases _ _ _ _ _ hfound with ⟨hk, hc⟩ | ⟨hk, hold⟩
    · subst hk
      subst hc
      dsimp only at hL2
      rw [List.getLast?_concat] at hL2
      have hL2e := Option.some_inj.mp hL2
      subst hL2e
      rcases List.mem_append.mp hu with hu | hu
      · dsimp only at ha
        rcases List.mem_append.mp ha with ha | ha
        · exact hinv.last_bound _ _ hcat hflag L hLlast u hu hum htoku a ha
        · rw [List.mem_singleton] at ha
          rw [ha]
          exact hbound u hu
      · rw [List.mem_singleton] at hu; subst hu; exact absurd hum hm
    · rcases List.mem_append.mp hu with hu | hu
      · exact hinv.last_bound _ _ hold hkfl L2 hL2 u hu hum htoku a ha
      · rw [List.mem_singleton] at hu; subst hu; exact absurd hum hm
  · intro k c2 hfound g hg
    dsimp only at hfound
    rcases dictFind_dictSet_cases _ _ _ _ _ hfound with ⟨hk, hc⟩ | ⟨hk, hold⟩
    · subst hk hc
      dsimp only at hg
      rcases List.mem_append.mp hg with hg | hg
      · exact (hinv.no_between _ _ hcat g
          (by rw [hsplit]; exact List.mem_append_left _ hg)).imp
          (fun h => noBetween_extend_matched fs t processed hm h)
      · rw [List.mem_singleton] at hg
        subst hg
        dsimp only
        rw [List.pairwise_append]
        refine ⟨(hinv.no_between _ _ hcat L hLmem).imp
          (fun h => noBetween_extend_matched fs t processed hm h),
          by simp, ?_⟩
        intro a ha b hb
        rw [List.mem_singleton] at hb
        subst hb
        intro u hu hum htoka
        rcases List.mem_append.mp hu with hu | hu
        · have hle := hinv.last_bound _ _ hcat hflag L hLlast u hu hum
            (htoka.trans (htokL a ha)) a ha
          rintro ⟨h1, h2⟩
          omega
        · rw [List.mem_singleton] at hu; subst hu; exact absurd hum hm
    · exact (hinv.no_between _ _ hold g hg).imp
        (fun h => noBetween_extend_matched fs t processed hm h)

theorem ginv_new_last (fs : List GroupFilter) (t : TronTransfer)
    (outg : Bool) (addr : String) (s : GState)
    (processed : List TronTransfer) (c : TokenCat)
    (gs : List TokenGroup) (L : TokenGroup)
    (hinv : GInv fs s processed) (hm : findMatch fs t ≠ none)
    (hbound : ∀ p ∈ processed, p.timestamp ≤ t.timestamp)
    (hcat : dictFind s.grouped_tr t.token_name = some c)
    (hsplit : c.groups = gs ++ [L]) :
    GInv fs
      { grouped_tr := dictSet s.grouped_tr t.token_name
          ⟨c.count + 1, (gs ++ [L]) ++ [⟨outg, addr, [t]⟩]⟩,
        ungrouped_tr := s.ungrouped_tr,
        new_group_currenys :=
          if t.token_name ∈ s.new_group_currenys
          then s.new_group_currenys.erase t.token_name
          else s.new_group_currenys }
      (processed ++ [t]) := by
  have hsub : ∀ k, k ∈ (if t.token_name ∈ s.new_group_currenys
      then s.new_group_currenys.erase t.token_name
      else s.new_group_currenys) → k ∈ s.new_group_currenys := by
    intro k hk
    by_cases hfm2 : t.token_name ∈ s.new_group_currenys
    · rw [if_pos hfm2] at hk
      exact List.mem_of_mem_erase hk
    · rw [if_neg hfm2] at hk
      exact hk
  have hnotin : ∀ k, k ≠ t.token_name →
      k ∉ (if t.token_name ∈ s.new_group_currenys
        then s.new_group_currenys.erase t.token_name
        else s.new_group_currenys) → k ∉ s.new_group_currenys := by
    intro k hkne hk hin
    by_cases hfm2 : t.token_name ∈ s.new_group_currenys
    · rw [if_pos hfm2] at hk
      exact hk ((List.mem_erase_of_ne hkne).mpr hin)
    · rw [if_neg hfm2] at hk
      exact hk hin
  refine ⟨?_, ?_, ?_, ?_, ?_, ?_, ?_, ?_, ?_⟩
  · dsimp only
    rw [dictSet_keys_present s.grouped_tr t.token_name _ c hcat]
    exact hinv.keys_nodup
  · dsimp only
    by_cases hfm2 : t.token_name ∈ s.new_group_currenys
    · rw [if_pos hfm2]
      exact hinv.flags_nodup.erase _
    · rw [if_neg hfm2]
      exact hinv.flags_nodup
  · intro k hk
    dsimp only at hk ⊢
    exact dictFind_dictSet_isSome _ _ _ _
      (by rw [hinv.flag_cat k (hsub k hk)])
  · intro k c2 hfound
    dsimp only at hfound
    rcases dictFind_dictSet_cases _ _ _ _ _ hfound with ⟨hk, hc⟩ | ⟨hk, hold⟩
    · subst hc
      dsimp only
      rw [hinv.count_eq _ _ hcat, hsplit]
      simp
    · exact hinv.count_eq _ _ hold
  · intro k c2 hfound
    dsimp only at hfound
    rcases dictFind_dictSet_cases _ _ _ _ _ hfound with ⟨hk, hc⟩ | ⟨hk, hold⟩
    · subst hc; simp
    · exact hinv.groups_ne _ _ hold
  · intro k c2 hfound g hg a ha
    dsimp only at hfound
    rcases dictFind_dictSet_cases _ _ _ _ _ hfound with ⟨hk, hc⟩ | ⟨hk, hold⟩
    · subst hk hc
      dsimp only at hg
      rcases List.mem_append.mp hg with hg | hg
      · exact hinv.token_eq _ _ hcat g (by rw [hsplit]; exact hg) a ha
      · rw [List.mem_singleton] at hg
        subst hg
        dsimp only at ha
        rw [List.mem_singleton] at ha
        subst ha
        rfl
    · exact hinv.token_eq _ _ hold g hg a ha
  · intro k c2 hfound g hg a ha
    dsimp only at hfound
    rcases dictFind_dictSet_cases _ _ _ _ _ hfound with ⟨hk, hc⟩ | ⟨hk, hold⟩
    · subst hk hc
      dsimp only at hg
      rcases List.mem_append.mp hg with hg | hg
      · exact List.mem_append_left _
          (hinv.mem_processed _ _ hcat g (by rw [hsplit]; exact hg) a ha)
      · rw [List.mem_singleton] at hg
        subst hg
        dsimp only at ha
        rw [List.mem_singleton] at ha
        rw [ha]
        exact List.mem_append_right _ (List.mem_singleton.mpr rfl)
    · exact List.mem_append_left _ (hinv.mem_processed _ _ hold g hg a ha)
  · intro k c2 hfound hkfl L2 hL2 u hu hum htoku a ha
    dsimp only at hfound hkfl hL2
    rcases dictFind_dictSet_cases _ _ _ _ _ hfound with ⟨hk, hc⟩ | ⟨hk, hold⟩
    · subst hk
      subst hc
      dsimp only at hL2
      rw [List.getLast?_concat] at hL2
      have hL2e := Option.some_inj.mp hL2
      rw [← hL2e] at ha
      rw [List.mem_singleton] at ha
      rw [ha]
      rcases List.mem_append.mp hu with hu | hu
      · exact hbound u hu
      · rw [List.mem_singleton] at hu; subst hu; exact absurd hum hm
    · have hkfl0 : k ∉ s.new_group_currenys := hnotin k hk hkfl
      rcases List.mem_append.mp hu with hu | hu
      · exact hinv.last_bound _ _ hold hkfl0 L2 hL2 u hu hum htoku a ha
      · rw [List.mem_singleton] at hu; subst hu; exact absurd hum hm
  · intro k c2 hfound g hg
    dsimp only at hfound
    rcases dictFind_dictSet_cases _ _ _ _ _ hfound with ⟨hk, hc⟩ | ⟨hk, hold⟩
    · subst hk hc
      dsimp only at hg
      rcases List.mem_append.mp hg with hg | hg
      · exact (hinv.no_between _ _ hcat g (by rw [hsplit]; exact hg)).imp
          (fun h => noBetween_extend_matched fs t processed hm h)
      · rw [List.mem_singleton] at hg
        subst hg
        simp
    · exact (hinv.no_between _ _ hold g hg).imp
        (fun h => noBetween_extend_matched fs t processed hm h)

theorem ginv_stepUnmatched (fs : List GroupFilter) (t : TronTransfer)
    (s : GState) (processed : List TronTransfer)
    (hinv : GInv fs s processed) (hum : findMatch fs t = none)
    (hbound : ∀ p ∈ processed, p.timestamp ≤ t.timestamp) :
    GInv fs (stepUnmatched t s) (processed ++ [t]) := by
  unfold stepUnmatched
  refine ⟨hinv.keys_nodup, ?_, ?_, hinv.count_eq, hinv.groups_ne,
    hinv.token_eq, ?_, ?_, ?_⟩
  · dsimp only
    by_cases hc : (dictFind s.grouped_tr t.token_name).isSome
        ∧ t.token_name ∉ s.new_group_currenys
    · rw [if_pos hc]
      rw [List.nodup_append]
      refine ⟨hinv.flags_nodup, by simp, ?_⟩
      intro a ha hb
      rw [List.mem_singleton] at hb
      subst hb
      exact hc.2 ha
    · rw [if_neg hc]
      exact hinv.flags_nodup
  · intro k hk
    dsimp only at hk ⊢
    by_cases hc : (dictFind s.grouped_tr t.token_name).isSome
        ∧ t.token_name ∉ s.new_group_currenys
    · rw [if_pos hc] at hk
      rcases List.mem_append.mp hk with hk | hk
      · exact hinv.flag_cat k hk
      · rw [List.mem_singleton] at hk
        rw [hk]
        exact hc.1
    · rw [if_neg hc] at hk
      exact hinv.flag_cat k hk
  · intro k c2 hfound g hg a ha
    exact List.mem_append_left _ (hinv.mem_processed _ _ hfound g hg a ha)
  · intro k c2 hfound hkfl L2 hL2 u hu hum2 htoku a ha
    dsimp only at hfound hkfl hL2
    have hkne : k ≠ t.token_name := by
      intro he
      rw [he] at hkfl hfound
      by_cases hc : (dictFind s.grouped_tr t.token_name).isSome
          ∧ t.token_name ∉ s.new_group_currenys
      · rw [if_pos hc] at hkfl
        exact hkfl (List.mem_append_right _ (List.mem_singleton.mpr rfl))
      · rw [if_neg hc] at hkfl
        rw [Classical.not_and_iff_or_not_not] at hc
        rcases hc with hc | hc
        · rw [hfound] at hc
          exact hc rfl
        · rw [Classical.not_not] at hc
          exact hkfl hc
    have hkfl0 : k ∉ s.new_group_currenys := by
      intro hin
      apply hkfl
      by_cases hc : (dictFind s.grouped_tr t.token_name).isSome
          ∧ t.token_name ∉ s.new_group_currenys
      · rw [if_pos hc]
        exact List.mem_append_left _ hin
      · rw [if_neg hc]
        exact hin
    rcases List.mem_append.mp hu with hu | hu
    · exact hinv.last_bound _ _ hfound hkfl0 L2 hL2 u hu hum2 htoku a ha
    · rw [List.mem_singleton] at hu
      apply absurd htoku.symm
      rw [hu]
      exact hkne
  · intro k c2 hfound g hg
    dsimp only at hfound
    apply List.Pairwise.imp_of_mem ?_ (hinv.no_between _ _ hfound g hg)
    intro a b hamem hbmem hR
    intro u hu hum3 htok
    rcases List.mem_append.mp hu with hu | hu
    · exact hR u hu hum3 htok
    · rw [List.mem_singleton] at hu
      subst hu
      rintro ⟨h1, h2⟩
      have hbp := hinv.mem_processed _ _ hfound g hg b hbmem
      have := hbound b hbp
      omega

theorem ginv_stepMatched (fs : List GroupFilter) (t : TronTransfer)
    (outg : Bool) (addr : String) (s : GState)
    (processed : List TronTransfer) (hinv : GInv fs s processed)
    (hm : findMatch fs t ≠ none)
    (hbound : ∀ p ∈ processed, p.timestamp ≤ t.timestamp) :
    GInv fs (stepMatched t outg addr s) (processed ++ [t]) := by
  cases hcat : dictFind s.grouped_tr t.token_name with
  | none =>
    have hflag : t.token_name ∉ s.new_group_currenys := by
      intro hin
      have h1 := hinv.flag_cat _ hin
      rw [hcat] at h1
      cases h1
    rw [stepMatched_fresh t outg addr s hcat hflag]
    cases outg with
    | false =>
      simp only [Bool.false_eq_true, if_false]
      exact ginv_fresh_cat fs t s processed _ hinv hm hbound hcat
        (by simp) (by simp)
        (by
          intro g hg a ha
          rw [List.mem_singleton] at hg
          subst hg
          rw [List.mem_singleton] at ha
          exact ha)
    | true =>
      simp only [if_true]
      exact ginv_fresh_cat fs t s processed _ hinv hm hbound hcat
        (by simp) (by simp)
        (by
          intro g hg a ha
          rcases List.mem_cons.mp hg with hg | hg
          · subst hg
            cases ha
          · rw [List.mem_singleton] at hg
            subst hg
            rw [List.mem_singleton] at ha
            exact ha)
  | some c =>
    have hcount := hinv.count_eq _ _ hcat
    have hne := hinv.groups_ne _ _ hcat
    obtain ⟨gs, L, hsplit⟩ : ∃ gs L, c.groups = gs ++ [L] :=
      ⟨c.groups.dropLast, c.groups.getLast hne,
        (List.dropLast_append_getLast hne).symm⟩
    cases hfit : (L.is_outgoing || decide (L.address ≠ addr)
        || decide (t.token_name ∈ s.new_group_currenys)) with
    | false =>
      rw [stepMatched_append t outg addr s c gs L hcat hcount hsplit hfit]
      have hflag : t.token_name ∉ s.new_group_currenys := by
        simp only [Bool.or_eq_false_iff, decide_eq_false_iff_not] at hfit
        exact hfit.2
      exact ginv_append_last fs t s processed c gs L hinv hm hbound
        hcat hsplit hflag
    | true =>
      rw [stepMatched_newgroup t outg addr s c gs L hcat hcount hsplit hfit]
      exact ginv_new_last fs t outg addr s processed c gs L hinv hm hbound
        hcat hsplit

theorem ginv_groupStep (fs : List GroupFilter) (t : TronTransfer)
    (s : GState) (processed : List TronTransfer)
    (hinv : GInv fs s processed)
    (hbound : ∀ p ∈ processed, p.timestamp ≤ t.timestamp) :
    GInv fs (groupStep fs s t) (processed ++ [t]) := by
  unfold groupStep
  cases hfm : findMatch fs t with
  | none => exact ginv_stepUnmatched fs t s processed hinv hfm hbound
  | some k =>
    have hm : findMatch fs t ≠ none := by rw [hfm]; exact Option.some_ne_none k
    cases k with
    | deposit =>
      exact ginv_stepMatched fs t false t.from_address s processed hinv hm hbound
    | withdrawal =>
      exact ginv_stepMatched fs t true t.to_address s processed hinv hm hbound

theorem ginv_init (fs : List GroupFilter) : GInv fs ⟨[], [], []⟩ [] := by
  refine ⟨by simp, by simp, ?_, ?_, ?_, ?_, ?_, ?_, ?_⟩
  · intro k hk
    cases hk
  · intro k c2 hfound
    cases hfound
  · intro k c2 hfound
    cases hfound
  · intro k c2 hfound
    cases hfound
  · intro k c2 hfound
    cases hfound
  · intro k c2 hfound
    cases hfound
  · intro k c2 hfound
    cases hfound

theorem ginv_foldl (fs : List GroupFilter) (rem : List TronTransfer) :
    ∀ (processed : List TronTransfer) (s : GState),
      GInv fs s processed →
      List.Pairwise (fun a b : TronTransfer => a.timestamp ≤ b.timestamp)
        (processed ++ rem) →
      GInv fs (rem.foldl (groupStep fs) s) (processed ++ rem) := by
  induction rem with
  | nil =>
    intro processed s hinv _
    simpa using hinv
  | cons t rem2 ih =>
    intro processed s hinv hsorted
    have hbound : ∀ p ∈ processed, p.timestamp ≤ t.timestamp := by
      have h1 := (List.pairwise_append.mp hsorted).2.2
      exact fun p hp => h1 p hp t (List.mem_cons_self t rem2)
    have hstep := ginv_groupStep fs t s processed hinv hbound
    have hsorted2 : List.Pairwise
        (fun a b : TronTransfer => a.timestamp ≤ b.timestamp)
        ((processed ++ [t]) ++ rem2) := by
      rw [List.append_assoc]
      simpa using hsorted
    have hres := ih (processed ++ [t]) (groupStep fs s t) hstep hsorted2
    rw [List.append_assoc] at hres
    simpa using hres

/-- C6: for every input and every group returned by the grouping step, any
two transfers a, b placed in that group in this order have no transfer of
a's token that matches no group rule lying strictly between them in
timestamp order: an unmatched transfer of a token that already has a group
sets the token's force-new-group flag (line 187), and the flag is cleared
only by opening a fresh group (lines 139-140 / 176-177), so an interrupted
run is never extended. (The claim assumes a chronologically sorted input;
the theorem holds for every input because `_group_transfers` sorts first.) -/
theorem c6_group_contiguity (fs : List GroupFilter)
    (transfers : List TronTransfer) (g : List TronTransfer)
    (hg : g ∈ (groupTransfers fs transfers).1)
    (a b u : TronTransfer) (hab : List.Sublist [a, b] g)
    (hu : u ∈ transfers) (hum : findMatch fs u = none)
    (htok : u.token_name = a.token_name) :
    ¬(a.timestamp < u.timestamp ∧ u.timestamp < b.timestamp) := by
  by_cases hfs : fs = []
  · rw [hfs] at hg
    simp [groupTransfers] at hg
  · simp only [groupTransfers, if_neg hfs] at hg
    have hsorted : List.Pairwise
        (fun x y : TronTransfer => x.timestamp ≤ y.timestamp)
        ([] ++ sortTs transfers) := by
      simp only [List.nil_append]
      exact (sortTs_sorted transfers).imp
        (fun h => by simpa [tsLe] using h)
    have hG := ginv_foldl fs (sortTs transfers) [] ⟨[], [], []⟩
      (ginv_init fs) hsorted
    simp only [List.nil_append] at hG
    unfold flattenGroups at hg
    rw [List.mem_flatten] at hg
    obtain ⟨l, hl, hgl⟩ := hg
    rw [List.mem_map] at hl
    obtain ⟨p, hp, rfl⟩ := hl
    rw [List.mem_map] at hgl
    obtain ⟨tg, htg, rfl⟩ := hgl
    have hfind := dictFind_of_mem _ p hG.keys_nodup hp
    have hpw := hG.no_between p.1 p.2 hfind tg htg
    have hpair := List.Pairwise.sublist hab hpw
    rw [List.pairwise_cons] at hpair
    have hR : NoBetween fs (sortTs transfers) a b :=
      hpair.1 b (List.mem_singleton.mpr rfl)
    exact hR u ((sortTs_perm transfers).mem_iff.mpr hu) hum htok

/-- C6, witness: the contiguity theorem applied at the input of Scenario A
extended by one unmatched transfer of the same token at timestamp 5. -/
theorem c6_group_contiguity_witness :
    ¬(c7t1.timestamp < c6u0.timestamp ∧ c6u0.timestamp < c7t2.timestamp) :=
  c6_group_contiguity ruleFromA [c7t1, c7t2, c6u0] [c7t1, c7t2]
    (by decide) c7t1 c7t2 c6u0 (by decide) (by decide) (by decide) (by decide)
